import Mathlib

/-!
# Verification of the PrepPal document retrieval / RAG pipeline

Shallow embedding of the core pipeline of `preppal/backend/main.py`:
text chunking (`chunk_text`), embedding creation with fallback
(`create_embeddings`), similarity ranking (`retrieve_relevant_chunks`),
answer short-circuiting (`generate_answer_with_llm`), and the in-memory
document store (`upload_document`, `delete_document`).

Python strings are modelled as `List Char`, Python floats as exact
numbers (`ℚ` for the ranking layer, `ℝ` for the normalization layer,
where a square root occurs).  External provider calls are modelled as
oracle functions passed in as parameters; an embedding-provider call
that raises is an oracle returning `none`.
-/

/-- A Python string, modelled as its list of characters. -/
abbrev Str := List Char

/-! ## Chunker: `chunk_text` (main.py lines 139-148) -/

/-- Whitespace test used by Python `str.split()` (ASCII core:
space, tab, newline, carriage return; the claims do not depend on the
exact whitespace class). -/
def isWs (c : Char) : Bool :=
  c = ' ' || c = '\t' || c = '\n' || c = '\r'

/-- `text.split()`: split on runs of whitespace, dropping empty pieces.
Models Python `str.split()` with no separator argument. -/
def pySplitWs : Str → List Str
  | [] => []
  | c :: cs =>
    if isWs c then pySplitWs cs
    else (c :: cs.takeWhile (fun d => !isWs d)) ::
      pySplitWs (cs.dropWhile (fun d => !isWs d))
termination_by s => s.length
decreasing_by
  · simp only [List.length_cons]; omega
  · have := (List.IsSuffix.sublist (List.dropWhile_suffix
      (l := cs) (fun d => !isWs d))).length_le
    simp only [List.length_cons]; omega

/-- `' '.join(ws)`: join strings with single spaces. -/
def pyJoin : List Str → Str
  | [] => []
  | [w] => w
  | w :: ws => w ++ ' ' :: pyJoin ws

/-- The index slices `words[i:i+chunk_size]` for `i in
range(0, len(words), chunk_size)`: successive blocks of `n` elements
(the value at `n = 0` is never used; Python `range` with step 0 raises). -/
def chunksOf (n : Nat) (l : List α) : List (List α) :=
  if l.isEmpty || n == 0 then [] else l.take n :: chunksOf n (l.drop n)
termination_by l.length
decreasing_by
  rename_i h
  rw [Bool.or_eq_true, List.isEmpty_iff, beq_iff_eq] at h
  push_neg at h
  have hl : 0 < l.length := List.length_pos.mpr h.1
  have := List.length_drop n l
  omega

/-- `chunk_text(text, chunk_size)` from main.py: split into words,
return `[""]` when there are no words, else join each block of
`chunk_size` words with spaces. -/
def chunk_text (text : Str) (chunk_size : Nat) : List Str :=
  if (pySplitWs text).isEmpty then [[]]
  else (chunksOf chunk_size (pySplitWs text)).map pyJoin

/-! ## Embedder: `create_embeddings` (main.py lines 151-177) and the
normalization steps.  Vector components are modelled as real numbers. -/

/-- Squared L2 norm of a vector: the sum of the squares of its entries. -/
def l2normSq (v : List ℝ) : ℝ := (v.map (fun x => x * x)).sum

/-- `np.linalg.norm(v)`: the L2 norm. -/
noncomputable def l2norm (v : List ℝ) : ℝ := Real.sqrt (l2normSq v)

/-- Unconditional normalization `v / np.linalg.norm(v)`: used by the
fallback path of `create_embeddings` and by the query-embedding step of
`retrieve_relevant_chunks`, in both cases with no guard on the norm. -/
noncomputable def normalizeRow (v : List ℝ) : List ℝ :=
  v.map (fun x => x / l2norm v)

/-- Guarded normalization from the per-chunk loop of `create_embeddings`:
`norm = np.linalg.norm(arr); if norm > 0: arr = arr / norm`. -/
noncomputable def normalizeGuarded (v : List ℝ) : List ℝ :=
  if 0 < l2norm v then normalizeRow v else v

/-- The denominators the guarded document-path normalization divides by:
the division `arr / norm` is executed only under the guard `norm > 0`. -/
noncomputable def guardedNormDivisors (v : List ℝ) : List ℝ :=
  if 0 < l2norm v then [l2norm v] else []

/-- The denominators the query-normalization step of
`retrieve_relevant_chunks` divides by: the code computes
`query_embedding / np.linalg.norm(query_embedding)` unconditionally. -/
noncomputable def queryNormDivisors (v : List ℝ) : List ℝ := [l2norm v]

/-- Dimensionality of the fallback vectors: `np.random.randn(len(texts), 768)`. -/
def EMBED_DIM : Nat := 768

/-- Row `i` of the sampled Gaussian matrix `np.random.randn(n, 768)`,
with the random draw modelled by the oracle `rand`. -/
def randRow (rand : Nat → Nat → ℝ) (i : Nat) : List ℝ :=
  (List.range EMBED_DIM).map (rand i)

/-- The fallback batch: `np.random.randn(len(texts), 768)` normalized
row-wise by `embeddings / np.linalg.norm(embeddings, axis=1, keepdims=True)`
(no zero-norm guard on this path). -/
noncomputable def fallbackEmbeddings (rand : Nat → Nat → ℝ) (n : Nat) :
    List (List ℝ) :=
  (List.range n).map (fun i => normalizeRow (randRow rand i))

/-- The `try` body of `create_embeddings`: one provider call per chunk
(`genai.embed_content`), each result normalized with the zero guard.
`provider t = none` models the call raising; the first raise aborts the
whole loop (`none`). -/
noncomputable def tryEmbedAll (provider : Str → Option (List ℝ)) :
    List Str → Option (List (List ℝ))
  | [] => some []
  | t :: ts =>
    match provider t, tryEmbedAll provider ts with
    | some v, some rest => some (normalizeGuarded v :: rest)
    | _, _ => none

/-- `create_embeddings(texts)` from main.py: the whole per-chunk loop is
wrapped in one `try`; any raised call discards every per-chunk result and
substitutes the full random fallback batch. -/
noncomputable def create_embeddings (provider : Str → Option (List ℝ))
    (rand : Nat → Nat → ℝ) (texts : List Str) : List (List ℝ) :=
  match tryEmbedAll provider texts with
  | some l => l
  | none => fallbackEmbeddings rand texts.length

/-! ## Document store (main.py `documents_store`, `upload_document`
lines 543-576, `delete_document` lines 665-673).  A Python dict keyed by
fresh `uuid4` ids is modelled as an insertion-ordered association list. -/

/-- One entry of `documents_store`, with the fields written by
`upload_document`. -/
structure Doc (α : Type) where
  doc_id : String
  filename : String
  subject : String
  chunks : List Str
  embeddings : List (List α)
  upload_date : String
  num_chunks : Nat
  deriving DecidableEq

/-- The in-memory `documents_store`, in insertion order. -/
abbrev Store (α : Type) := List (String × Doc α)

/-- `documents_store[doc_id]` (first entry with the key, as in a dict). -/
def getDoc (s : Store α) (id : String) : Option (Doc α) :=
  match s.find? (fun p => p.1 == id) with
  | some p => some p.2
  | none => none

/-- `doc_id in documents_store`. -/
def containsDoc (s : Store α) (id : String) : Bool :=
  (s.find? (fun p => p.1 == id)).isSome

/-- `upload_document` (the core after PDF extraction): reject empty text
(`if not text: raise HTTPException`), else chunk with the default
`chunk_size=200`, embed, and publish the fully-built record under the
fresh id. -/
noncomputable def upload_document (s : Store ℝ)
    (provider : Str → Option (List ℝ)) (rand : Nat → Nat → ℝ)
    (text : Str) (doc_id filename subject upload_date : String) : Store ℝ :=
  if text.isEmpty then s
  else
    s ++ [(doc_id,
      { doc_id := doc_id
        filename := filename
        subject := subject
        chunks := chunk_text text 200
        embeddings := create_embeddings provider rand (chunk_text text 200)
        upload_date := upload_date
        num_chunks := (chunk_text text 200).length })]

/-- `delete_document(doc_id)`: if present, `del documents_store[doc_id]`
and report success (`true`); else leave the store unchanged and report
not-found (`false`). -/
def delete_document (s : Store α) (id : String) : Store α × Bool :=
  if containsDoc s id then (s.filter (fun p => p.1 != id), true)
  else (s, false)

/-- Store states reachable from the empty store by any sequence of
uploads (with arbitrary provider/randomness oracles and inputs) and
deletions. -/
inductive Reachable : Store ℝ → Prop
  | empty : Reachable []
  | upload (s provider rand text doc_id filename subject upload_date) :
      Reachable s →
      Reachable (upload_document s provider rand text doc_id filename
        subject upload_date)
  | delete (s id) : Reachable s → Reachable (delete_document s id).1

/-! ## Retriever: `retrieve_relevant_chunks` (main.py lines 186-235).
The ranking layer works on the already-computed query embedding (the
normalization of the query vector is the ℝ-side `normalizeRow` above);
ranking itself is exact arithmetic, modelled over `ℚ`. -/

/-- The `source` record attached to each candidate. -/
structure Source where
  doc_id : String
  filename : String
  chunk_index : Nat
  deriving DecidableEq

/-- One element of the returned list: `{text, score, source}`. -/
structure RetrievalResult where
  text : Str
  score : ℚ
  source : Source
  deriving DecidableEq

instance : Inhabited Source := ⟨⟨"", "", 0⟩⟩

instance : Inhabited RetrievalResult := ⟨⟨[], 0, default⟩⟩

/-- Dot product of two vectors (`np.dot` of equal-length rows). -/
def dotQ (u v : List ℚ) : ℚ := (List.zipWith (· * ·) u v).sum

/-- `cosine_similarity(query_embedding, doc_embeddings)` from main.py:
the dot product of each candidate row with the query vector. -/
def cosine_similarity (q : List ℚ) (rows : List (List ℚ)) : List ℚ :=
  rows.map (fun r => dotQ r q)

/-- `target_docs = doc_ids if doc_ids else list(documents_store.keys())`:
a non-empty scope list is used as given; `None` or `[]` (falsy) selects
every key of the store in insertion order. -/
def targetDocs (s : Store ℚ) (doc_ids : Option (List String)) : List String :=
  match doc_ids with
  | some ids => if ids.isEmpty then s.map (·.1) else ids
  | none => s.map (·.1)

/-- The candidate accumulation loop: for each target id present in the
store, every chunk with its embedding and source record, in iteration
order.  `doc['embeddings'][i]` is in bounds on every store the Python
code runs on (the §3 alignment invariant, proved below for reachable
states); out of bounds it is modelled as `[]` where Python would raise. -/
def candidates (s : Store ℚ) (doc_ids : Option (List String)) :
    List (Str × List ℚ × Source) :=
  (targetDocs s doc_ids).flatMap (fun id =>
    match getDoc s id with
    | none => []
    | some doc =>
      doc.chunks.enum.map (fun p =>
        (p.2, doc.embeddings.getD p.1 [],
          ⟨id, doc.filename, p.1⟩)))

/-- The similarity vector over the candidates, in candidate order. -/
def simsOf (q : List ℚ) (s : Store ℚ) (doc_ids : Option (List String)) :
    List ℚ :=
  cosine_similarity q ((candidates s doc_ids).map (fun c => c.2.1))

/-- Comparison used to model `np.argsort(similarities)`: ascending by
similarity, equal similarities ordered by index.  An index-stable
ascending argsort is exactly a sort under this total relation.  (NumPy's
default `argsort` is introsort, whose tie order is unspecified; on small
arrays it is the stable insertion sort modelled here.) -/
def rankRel (sims : List ℚ) (i j : Nat) : Prop :=
  sims.getD i 0 < sims.getD j 0 ∨ (sims.getD i 0 = sims.getD j 0 ∧ i ≤ j)

instance (sims : List ℚ) : DecidableRel (rankRel sims) := fun _ _ =>
  inferInstanceAs (Decidable (_ ∨ _))

instance rankRel_total (sims : List ℚ) : IsTotal Nat (rankRel sims) := by
  constructor
  intro i j
  rcases lt_trichotomy (sims.getD i 0) (sims.getD j 0) with h | h | h
  · exact Or.inl (Or.inl h)
  · rcases Nat.le_total i j with hij | hij
    · exact Or.inl (Or.inr ⟨h, hij⟩)
    · exact Or.inr (Or.inr ⟨h.symm, hij⟩)
  · exact Or.inr (Or.inl h)

instance rankRel_trans (sims : List ℚ) : IsTrans Nat (rankRel sims) := by
  constructor
  intro i j k hij hjk
  rcases hij with h1 | ⟨h1, h1'⟩ <;> rcases hjk with h2 | ⟨h2, h2'⟩
  · exact Or.inl (h1.trans h2)
  · exact Or.inl (h2 ▸ h1)
  · exact Or.inl (h1 ▸ h2)
  · exact Or.inr ⟨h1.trans h2, h1'.trans h2'⟩

/-- `np.argsort(similarities)`: the list of indices `0..n-1` sorted
ascending by similarity (ties by index, see `rankRel`). -/
def argsortAsc (sims : List ℚ) : List Nat :=
  List.insertionSort (rankRel sims) (List.range sims.length)

/-- Python slice `l[-k:]`: the last `k` elements when `k > 0`; for
`k = 0` the slice `l[0:]` is the whole list (since `-0 == 0`). -/
def pySliceLast (l : List α) (k : Nat) : List α :=
  if k = 0 then l else l.drop (l.length - k)

/-- `top_indices = np.argsort(similarities)[-top_k:][::-1]`, guarded by
the early return `if not all_embeddings: return []`. -/
def rankIndices (q : List ℚ) (s : Store ℚ) (doc_ids : Option (List String))
    (top_k : Nat) : List Nat :=
  if (candidates s doc_ids).isEmpty then []
  else (pySliceLast (argsortAsc (simsOf q s doc_ids)) top_k).reverse

/-- `retrieve_relevant_chunks(query, doc_ids, top_k)`: `none` as first
argument models the query-embedding call raising (`return []`); `some q`
is the normalized query embedding.  The result list reads text, score
and source at each ranked index. -/
def retrieve_relevant_chunks (queryEmb : Option (List ℚ)) (s : Store ℚ)
    (doc_ids : Option (List String)) (top_k : Nat) : List RetrievalResult :=
  match queryEmb with
  | none => []
  | some q =>
    (rankIndices q s doc_ids top_k).map (fun i =>
      { text := ((candidates s doc_ids).getD i default).1
        score := (simsOf q s doc_ids).getD i 0
        source := ((candidates s doc_ids).getD i default).2.2 })

/-! ## Answer synthesizer boundary: `generate_answer_with_llm`
(main.py lines 238-259). -/

/-- The fixed no-materials message returned on an empty context. -/
def NO_MATERIALS_MSG : String :=
  "I don\x27t have any study materials to reference yet. Please upload some documents first!"

/-- The context block assembled from the retrieved chunks. -/
def contextBlock (chunks : List RetrievalResult) : String :=
  String.intercalate "\n\n" (chunks.map (fun c =>
    "[Source: " ++ c.source.filename ++ ", Chunk " ++
      toString c.source.chunk_index ++ "]\n" ++ String.mk c.text))

/-- The RAG prompt assembled from query and ranked context. -/
def buildPrompt (query : String) (chunks : List RetrievalResult) : String :=
  "You are PrepPal, a helpful study assistant. Answer the student\x27s question using ONLY the information provided in the context below. If the answer cannot be found in the context, say \"I couldn\x27t find that information in your study materials.\"\n\nContext:\n"
    ++ contextBlock chunks ++ "\n\nQuestion: " ++ query ++ "\n\nAnswer:"

/-- `generate_answer_with_llm(query, context_chunks)` with the external
model call as an oracle.  The second component records whether the
external call was made: the `if not context_chunks` short-circuit
returns the fixed message before any model object is built. -/
def generate_answer_with_llm (llm : String → String) (query : String)
    (context_chunks : List RetrievalResult) : String × Bool :=
  if context_chunks.isEmpty then (NO_MATERIALS_MSG, false)
  else (llm (buildPrompt query context_chunks), true)

/-! ## Helper lemmas -/

lemma find?_filter_key_ne {α : Type} (s : Store α) {x y : String} (h : x ≠ y) :
    (s.filter (fun p => p.1 != x)).find? (fun p => p.1 == y) =
      s.find? (fun p => p.1 == y) := by
  induction s with
  | nil => rfl
  | cons p t ih =>
    by_cases hx : p.1 = x
    · have h2 : (x == y) = false := beq_eq_false_iff_ne.mpr h
      simp [List.filter_cons, hx, List.find?_cons, h2, ih]
    · by_cases hy : p.1 = y
      · have hyx : ¬ y = x := fun hh => h hh.symm
        simp [List.filter_cons, hx, List.find?_cons, hy, hyx]
      · simp [List.filter_cons, hx, List.find?_cons, hy, ih]

lemma find?_filter_key_self {α : Type} (s : Store α) (x : String) :
    (s.filter (fun p => p.1 != x)).find? (fun p => p.1 == x) = none := by
  apply List.find?_eq_none.mpr
  intro p hp
  have := (List.mem_filter.mp hp).2
  simp only [bne_iff_ne, ne_eq] at this
  simp [this]

lemma getDoc_none_of_not_contains {α : Type} (s : Store α) (x : String)
    (h : containsDoc s x = false) : getDoc s x = none := by
  unfold containsDoc at h
  unfold getDoc
  cases hf : s.find? (fun p => p.1 == x) with
  | none => rfl
  | some p => rw [hf] at h; simp at h

/-- Candidate list of a non-empty scope consisting only of absent ids. -/
lemma candidates_all_missing (s : Store ℚ) (ids : List String)
    (hne : ids ≠ []) (habs : ∀ id ∈ ids, getDoc s id = none) :
    candidates s (some ids) = [] := by
  have ht : targetDocs s (some ids) = ids := by
    simp [targetDocs, List.isEmpty_iff, hne]
  unfold candidates
  rw [ht]
  apply List.flatMap_eq_nil_iff.mpr
  intro id hid
  rw [habs id hid]

/-! ## Claims -/

/-- C1 (amended): retrieval with a non-empty scope consisting only of
document ids not present in the store returns the empty result sequence.
(The claim as frozen also asserted that an empty scope set gives the same
empty result; the code treats a falsy `doc_ids` — `None` or `[]` — as
absent and searches the whole store, see the counterexample.) -/
theorem retrieve_scope_all_missing_empty (q : List ℚ) (s : Store ℚ)
    (ids : List String) (k : Nat) (hne : ids ≠ [])
    (habs : ∀ id ∈ ids, getDoc s id = none) :
    retrieve_relevant_chunks (some q) s (some ids) k = [] := by
  have hc := candidates_all_missing s ids hne habs
  simp [retrieve_relevant_chunks, rankIndices, hc]

/-- Shared concrete store: one document `"d1"` with two chunks `"a"`,
`"b"` whose embeddings are both `[1]`. -/
def qDoc : Doc ℚ :=
  { doc_id := "d1", filename := "f", subject := "s",
    chunks := [['a'], ['b']], embeddings := [[1], [1]],
    upload_date := "t", num_chunks := 2 }

/-- Shared one-document store over `ℚ`. -/
def qStore : Store ℚ := [("d1", qDoc)]

lemma cand_qStore_none : candidates qStore none =
    [(['a'], [1], ⟨"d1", "f", 0⟩), (['b'], [1], ⟨"d1", "f", 1⟩)] := by
  simp [candidates, targetDocs, getDoc, qStore, qDoc, List.enum, List.enumFrom]

lemma cand_qStore_empty_scope : candidates qStore (some []) =
    [(['a'], [1], ⟨"d1", "f", 0⟩), (['b'], [1], ⟨"d1", "f", 1⟩)] := by
  simp [candidates, targetDocs, getDoc, qStore, qDoc, List.enum, List.enumFrom]

lemma sims_qStore_none : simsOf [1] qStore none = [1, 1] := by
  simp [simsOf, cosine_similarity, cand_qStore_none, dotQ]

lemma sims_qStore_empty_scope : simsOf [1] qStore (some []) = [1, 1] := by
  simp [simsOf, cosine_similarity, cand_qStore_empty_scope, dotQ]

lemma argsortAsc_ones : argsortAsc [(1 : ℚ), 1] = [0, 1] := by
  simp [argsortAsc, List.insertionSort, List.orderedInsert, rankRel]

/-- C1 counterexample: on a non-empty store, scoping to the absent id
`"zzz"` returns no results, while scoping to the empty set is treated as
an absent scope and returns results from the whole store; the two do not
behave identically. -/
theorem retrieve_scope_missing_vs_empty_cex :
    retrieve_relevant_chunks (some [1]) qStore (some ["zzz"]) 5 = [] ∧
    retrieve_relevant_chunks (some [1]) qStore (some []) 5 ≠ [] := by
  constructor
  · have hc : candidates qStore (some ["zzz"]) = [] := by
      simp [candidates, targetDocs, getDoc, qStore, qDoc]
    simp [retrieve_relevant_chunks, rankIndices, hc]
  · simp [retrieve_relevant_chunks, rankIndices, cand_qStore_empty_scope,
      sims_qStore_empty_scope, argsortAsc_ones, pySliceLast]

/-- C1 witness: the amended theorem applied to the shared store and the
absent id `"zzz"`. -/
theorem retrieve_scope_all_missing_empty_witness :
    (["zzz"] : List String) ≠ [] ∧
    retrieve_relevant_chunks (some [1]) qStore (some ["zzz"]) 3 = [] := by
  refine ⟨by simp, retrieve_scope_all_missing_empty [1] qStore ["zzz"] 3 (by simp) ?_⟩
  intro id hid
  rw [List.mem_singleton] at hid
  subst hid
  simp [getDoc, qStore, qDoc]

/-- The ranked index list is sorted by the reversed comparison: strictly
descending similarity, with equal similarities in descending candidate
order (the ascending argsort is reversed by the `[::-1]` slice). -/
lemma rankIndices_pairwise (q : List ℚ) (s : Store ℚ)
    (scope : Option (List String)) (k : Nat) :
    (rankIndices q s scope k).Pairwise
      (fun i j => rankRel (simsOf q s scope) j i) := by
  unfold rankIndices
  by_cases hc : (candidates s scope).isEmpty = true
  · simp [hc]
  · simp only [hc, Bool.false_eq_true, if_false]
    rw [List.pairwise_reverse]
    have hsorted : List.Sorted (rankRel (simsOf q s scope))
        (argsortAsc (simsOf q s scope)) :=
      List.sorted_insertionSort _ _
    unfold pySliceLast
    split
    · exact hsorted
    · exact hsorted.sublist (List.drop_sublist _ _)

/-- C2 (amended): for a fixed store state and fixed query embedding the
ranked indices are pairwise ordered by strictly decreasing similarity,
with equal similarities in *descending* candidate order (documents in
iteration order, chunks in index order give the candidate numbering), and
consequently result scores are non-increasing.  Determinism holds
trivially of the (purely functional) ranking.  The frozen claim's tie
order — *original insertion order* — is refuted by the counterexample:
the stable ascending argsort is reversed by the `[::-1]` slice, so ties
come out in reverse insertion order. -/
theorem retrieve_sorted_desc (q : List ℚ) (s : Store ℚ)
    (scope : Option (List String)) (k : Nat) :
    (rankIndices q s scope k).Pairwise (fun i j =>
        (simsOf q s scope).getD j 0 < (simsOf q s scope).getD i 0 ∨
        ((simsOf q s scope).getD i 0 = (simsOf q s scope).getD j 0 ∧ j ≤ i)) ∧
    (retrieve_relevant_chunks (some q) s scope k).Pairwise
      (fun a b => b.score ≤ a.score) := by
  have hp := rankIndices_pairwise q s scope k
  constructor
  · exact hp.imp (fun h => h.imp id (fun hh => ⟨hh.1.symm, hh.2⟩))
  · show (List.map _ _).Pairwise _
    rw [List.pairwise_map]
    refine hp.imp ?_
    intro i j h
    rcases h with h | h
    · exact le_of_lt h
    · exact le_of_eq h.1

/-- C2 counterexample: two candidates with equal scores are returned in
*reverse* insertion order — chunk 1 before chunk 0 — refuting the claim
that ties appear in original insertion order. -/
theorem retrieve_tie_order_cex :
    (retrieve_relevant_chunks (some [1]) qStore none 2).map
        (fun r => (r.source.chunk_index, r.score)) = [(1, 1), (0, 1)] ∧
    (retrieve_relevant_chunks (some [1]) qStore none 2).map
        (fun r => (r.source.chunk_index, r.score)) ≠ [(0, 1), (1, 1)] := by
  have hr : rankIndices [1] qStore none 2 = [1, 0] := by
    simp [rankIndices, cand_qStore_none, sims_qStore_none, argsortAsc_ones,
      pySliceLast]
  constructor <;>
    simp [retrieve_relevant_chunks, hr, cand_qStore_none, sims_qStore_none]

/-- C3 (amended): when the query embedding succeeds, the number of
results is `min top_k (number of candidate chunks)` for every
`top_k ≥ 1`; but for `top_k = 0` the Python slice `[-0:]` selects the
*whole* array, so retrieval returns all candidates, not zero results.
The hypotheses restrict to stores the Python code runs on without
raising: positionally aligned chunk/embedding lists of the query's
dimension. -/
theorem retrieve_length_formula (q : List ℚ) (s : Store ℚ)
    (scope : Option (List String)) (k : Nat)
    (_halign : ∀ p ∈ s, p.2.chunks.length = p.2.embeddings.length)
    (_hdim : ∀ p ∈ s, ∀ v ∈ p.2.embeddings, v.length = q.length) :
    (retrieve_relevant_chunks (some q) s scope k).length =
      if k = 0 then (candidates s scope).length
      else min k (candidates s scope).length := by
  by_cases hc : (candidates s scope).isEmpty = true
  · have h0 : (candidates s scope).length = 0 := by
      rw [List.isEmpty_iff] at hc
      simp [hc]
    simp [retrieve_relevant_chunks, rankIndices, hc, h0]
  · have hlen : (argsortAsc (simsOf q s scope)).length =
        (candidates s scope).length := by
      simp [argsortAsc, List.length_insertionSort, simsOf, cosine_similarity]
    simp only [retrieve_relevant_chunks, rankIndices, hc, Bool.false_eq_true,
      if_false, List.length_map, List.length_reverse]
    unfold pySliceLast
    by_cases hk : k = 0
    · simp [hk, hlen]
    · simp only [hk, if_false, List.length_drop, hlen]
      omega

/-- C3 counterexample: on the shared two-candidate store, `top_k = 0`
returns 2 results where the frozen claim requires
`min(0, 2) = 0` results. -/
theorem retrieve_topk_zero_cex :
    (retrieve_relevant_chunks (some [1]) qStore none 0).length = 2 ∧
    (retrieve_relevant_chunks (some [1]) qStore none 0).length ≠ 0 := by
  have hr : rankIndices [1] qStore none 0 = [1, 0] := by
    simp [rankIndices, cand_qStore_none, sims_qStore_none, argsortAsc_ones,
      pySliceLast]
  simp [retrieve_relevant_chunks, hr]

/-- C3 witness: the amended length formula evaluated on the shared
store, at `top_k = 1` (gives `min 1 2 = 1` result) and at `top_k = 0`
(gives all 2 candidates). -/
theorem retrieve_length_formula_witness :
    (retrieve_relevant_chunks (some [1]) qStore none 1).length = 1 ∧
    (retrieve_relevant_chunks (some [1]) qStore none 0).length = 2 := by
  have halign : ∀ p ∈ qStore, p.2.chunks.length = p.2.embeddings.length := by
    intro p hp
    simp only [qStore, List.mem_singleton] at hp
    subst hp
    rfl
  have hdim : ∀ p ∈ qStore, ∀ v ∈ p.2.embeddings,
      v.length = ([(1 : ℚ)]).length := by
    intro p hp v hv
    simp only [qStore, List.mem_singleton] at hp
    subst hp
    simp only [qDoc, List.mem_cons, List.not_mem_nil, or_false] at hv
    rcases hv with hv | hv <;> simp [hv]
  constructor
  · rw [retrieve_length_formula [1] qStore none 1 halign hdim]
    simp [cand_qStore_none]
  · rw [retrieve_length_formula [1] qStore none 0 halign hdim]
    simp [cand_qStore_none]

/-- C9: for every query and every answer oracle, an empty retrieval
result sequence makes `generate_answer_with_llm` return the fixed
no-materials message, and the external model is not called (second
component `false`). -/
theorem generate_answer_empty_short_circuit (llm : String → String)
    (query : String) :
    generate_answer_with_llm llm query [] = (NO_MATERIALS_MSG, false) := rfl

/-- C10: deleting a present id `x` leaves the full record stored under
any other id `y` unchanged and removes the entry for `x`; deleting an
absent id reports not-found (`false`) and leaves the entire store
unchanged; deleting a present id reports success (`true`). -/
theorem delete_document_frame {α : Type} (s : Store α) (x y : String)
    (hxy : x ≠ y) :
    getDoc (delete_document s x).1 y = getDoc s y ∧
    getDoc (delete_document s x).1 x = none ∧
    (containsDoc s x = false → delete_document s x = (s, false)) ∧
    (containsDoc s x = true → (delete_document s x).2 = true) := by
  unfold delete_document
  by_cases hc : containsDoc s x = true
  · rw [if_pos hc]
    refine ⟨?_, ?_, ?_, fun _ => rfl⟩
    · unfold getDoc
      rw [find?_filter_key_ne s hxy]
    · unfold getDoc
      rw [find?_filter_key_self s x]
    · intro hf
      rw [hc] at hf
      exact absurd hf (by simp)
  · rw [if_neg hc]
    have hc' : containsDoc s x = false := by
      rwa [Bool.not_eq_true] at hc
    exact ⟨rfl, getDoc_none_of_not_contains s x hc', fun _ => rfl,
      fun hf => absurd hf hc⟩

/-- Second document used by the deletion witness. -/
def qDoc2 : Doc ℚ :=
  { doc_id := "d2", filename := "g", subject := "s",
    chunks := [['c']], embeddings := [[2]],
    upload_date := "t", num_chunks := 1 }

/-- Two-document store used by the deletion witness. -/
def qStore2 : Store ℚ := [("d1", qDoc), ("d2", qDoc2)]

/-- C10 witness: deleting `"d1"` from the two-document store keeps the
record of `"d2"` intact and drops `"d1"`; deleting the absent `"zzz"`
leaves the store unchanged and reports not-found. -/
theorem delete_document_frame_witness :
    getDoc (delete_document qStore2 "d1").1 "d2" = getDoc qStore2 "d2" ∧
    getDoc (delete_document qStore2 "d1").1 "d1" = none ∧
    delete_document qStore2 "zzz" = (qStore2, false) := by
  refine ⟨(delete_document_frame qStore2 "d1" "d2" (by simp)).1,
    (delete_document_frame qStore2 "d1" "d2" (by simp)).2.1,
    (delete_document_frame qStore2 "zzz" "d1" (by simp)).2.2.1 ?_⟩
  simp [containsDoc, qStore2, List.find?]

/-! ## Norm and fallback lemmas -/

lemma l2normSq_nonneg (v : List ℝ) : 0 ≤ l2normSq v := by
  apply List.sum_nonneg
  intro x hx
  rw [List.mem_map] at hx
  obtain ⟨y, _, rfl⟩ := hx
  exact mul_self_nonneg y

lemma l2norm_eq_zero_iff (v : List ℝ) : l2norm v = 0 ↔ l2normSq v = 0 := by
  unfold l2norm
  rw [Real.sqrt_eq_zero (l2normSq_nonneg v)]

lemma l2norm_pos_iff (v : List ℝ) : 0 < l2norm v ↔ l2normSq v ≠ 0 := by
  unfold l2norm
  rw [Real.sqrt_pos]
  constructor
  · exact ne_of_gt
  · intro h
    exact lt_of_le_of_ne (l2normSq_nonneg v) (Ne.symm h)

lemma length_normalizeRow (v : List ℝ) :
    (normalizeRow v).length = v.length := by
  simp [normalizeRow]

lemma length_normalizeGuarded (v : List ℝ) :
    (normalizeGuarded v).length = v.length := by
  unfold normalizeGuarded
  split
  · exact length_normalizeRow v
  · rfl

lemma l2normSq_normalizeRow (v : List ℝ) (h : l2normSq v ≠ 0) :
    l2normSq (normalizeRow v) = 1 := by
  have hs : l2norm v * l2norm v = l2normSq v := by
    unfold l2norm
    exact Real.mul_self_sqrt (l2normSq_nonneg v)
  have hn : l2norm v ≠ 0 := by
    rw [ne_eq, l2norm_eq_zero_iff]
    exact h
  unfold l2normSq normalizeRow
  rw [List.map_map]
  have heq : ((fun x => x * x) ∘ fun x => x / l2norm v) =
      fun x => x * x * (l2norm v * l2norm v)⁻¹ := by
    funext x
    simp only [Function.comp_apply]
    field_simp
  rw [heq]
  have hmul : ∀ l : List ℝ, (l.map (fun x => x * x * (l2norm v * l2norm v)⁻¹)).sum
      = (l.map (fun x => x * x)).sum * (l2norm v * l2norm v)⁻¹ := by
    intro l
    induction l with
    | nil => simp
    | cons a t ih =>
      simp only [List.map_cons, List.sum_cons, ih, add_mul]
  rw [hmul, hs]
  have : (v.map (fun x => x * x)).sum = l2normSq v := rfl
  rw [this, mul_inv_cancel₀ h]

lemma tryEmbedAll_length (provider : Str → Option (List ℝ))
    (texts : List Str) (l : List (List ℝ))
    (h : tryEmbedAll provider texts = some l) : l.length = texts.length := by
  induction texts generalizing l with
  | nil =>
    unfold tryEmbedAll at h
    cases h
    rfl
  | cons t ts ih =>
    unfold tryEmbedAll at h
    cases hp : provider t with
    | none => rw [hp] at h; cases h
    | some v =>
      rw [hp] at h
      cases hr : tryEmbedAll provider ts with
      | none => rw [hr] at h; cases h
      | some rest =>
        rw [hr] at h
        cases h
        simp [ih rest hr]

lemma tryEmbedAll_none_of_mem (provider : Str → Option (List ℝ))
    (texts : List Str) (t : Str) (ht : t ∈ texts)
    (hnone : provider t = none) : tryEmbedAll provider texts = none := by
  induction texts with
  | nil => cases ht
  | cons u ts ih =>
    unfold tryEmbedAll
    rcases List.mem_cons.mp ht with rfl | hmem
    · rw [hnone]
    · rw [ih hmem]
      cases provider u <;> rfl

lemma length_fallbackEmbeddings (rand : Nat → Nat → ℝ) (n : Nat) :
    (fallbackEmbeddings rand n).length = n := by
  simp [fallbackEmbeddings]

lemma length_create_embeddings (provider : Str → Option (List ℝ))
    (rand : Nat → Nat → ℝ) (texts : List Str) :
    (create_embeddings provider rand texts).length = texts.length := by
  unfold create_embeddings
  cases h : tryEmbedAll provider texts with
  | none => exact length_fallbackEmbeddings rand texts.length
  | some l => exact tryEmbedAll_length provider texts l h

lemma create_embeddings_fallback_of_fail (provider : Str → Option (List ℝ))
    (rand : Nat → Nat → ℝ) (texts : List Str) (t : Str) (ht : t ∈ texts)
    (hnone : provider t = none) :
    create_embeddings provider rand texts =
      fallbackEmbeddings rand texts.length := by
  unfold create_embeddings
  rw [tryEmbedAll_none_of_mem provider texts t ht hnone]

/-- C4 (amended): a provider failure on *any* chunk of the batch makes
`create_embeddings` replace the *entire* batch with fallback random
vectors — the successfully embedded chunks are discarded too — while the
whole-document embedding still returns normally (per-batch, not per-item,
failure handling).  The frozen per-item independence is refuted by the
counterexample below. -/
theorem create_embeddings_batch_fallback (provider : Str → Option (List ℝ))
    (rand : Nat → Nat → ℝ) (texts : List Str)
    (hfail : ∃ t ∈ texts, provider t = none) :
    create_embeddings provider rand texts =
      fallbackEmbeddings rand texts.length := by
  obtain ⟨t, ht, hnone⟩ := hfail
  exact create_embeddings_fallback_of_fail provider rand texts t ht hnone

/-- Provider oracle that succeeds on `"a"` (vector `[3, 4]`) and raises
on every other chunk. -/
noncomputable def pA : Str → Option (List ℝ) :=
  fun t => if t = ['a'] then some [3, 4] else none

/-- Provider oracle that raises on every call. -/
def pNone : Str → Option (List ℝ) := fun _ => none

/-- Randomness oracle drawing the constant 1. -/
def rOne : Nat → Nat → ℝ := fun _ _ => 1

/-- C4 counterexample: in the batch `["a", "b"]` the call for `"a"`
succeeds with `[3, 4]` and the call for `"b"` raises; chunk `"a"` does
not receive its own normalized provider vector (a 2-dimensional vector)
but a 768-dimensional fallback row — the failure was not handled
per-item. -/
theorem create_embeddings_not_per_item_cex :
    ((create_embeddings pA rOne [['a'], ['b']]).get? 0).map List.length =
      some EMBED_DIM ∧
    (normalizeGuarded [(3 : ℝ), 4]).length = 2 ∧
    (create_embeddings pA rOne [['a'], ['b']]).get? 0 ≠
      some (normalizeGuarded [(3 : ℝ), 4]) := by
  have hb : pA ['b'] = none := by
    unfold pA
    rw [if_neg (by simp)]
  have hnone : tryEmbedAll pA [['a'], ['b']] = none :=
    tryEmbedAll_none_of_mem pA [['a'], ['b']] ['b'] (by simp) hb
  have hfall : create_embeddings pA rOne [['a'], ['b']] =
      fallbackEmbeddings rOne 2 := by
    unfold create_embeddings
    rw [hnone]
    rfl
  have h0 : (create_embeddings pA rOne [['a'], ['b']]).get? 0 =
      some (normalizeRow (randRow rOne 0)) := by
    rw [hfall]
    simp [fallbackEmbeddings, List.range_succ_eq_map]
  have hlen : (normalizeRow (randRow rOne 0)).length = EMBED_DIM := by
    rw [length_normalizeRow]
    simp [randRow]
  refine ⟨?_, ?_, ?_⟩
  · rw [h0]
    simp [hlen]
  · rw [length_normalizeGuarded]
    rfl
  · intro hcontra
    rw [h0] at hcontra
    injection hcontra with hh
    have hl := congrArg List.length hh
    rw [hlen, length_normalizeGuarded] at hl
    simp [EMBED_DIM] at hl

/-- C4 witness: the amended whole-batch fallback applied to a
one-element batch whose only call raises. -/
theorem create_embeddings_batch_fallback_witness :
    create_embeddings pNone rOne [['a']] = fallbackEmbeddings rOne 1 := by
  have h := create_embeddings_batch_fallback pNone rOne [['a']]
    ⟨['a'], by simp, rfl⟩
  simpa using h

lemma mem_fallbackEmbeddings (rand : Nat → Nat → ℝ) (n : Nat)
    (v : List ℝ) (hv : v ∈ fallbackEmbeddings rand n) :
    ∃ i, v = normalizeRow (randRow rand i) := by
  unfold fallbackEmbeddings at hv
  rw [List.mem_map] at hv
  obtain ⟨i, _, rfl⟩ := hv
  exact ⟨i, rfl⟩

lemma length_randRow (rand : Nat → Nat → ℝ) (i : Nat) :
    (randRow rand i).length = EMBED_DIM := by
  simp [randRow]

lemma getDoc_append_fresh {α : Type} (s : Store α) (id : String)
    (doc : Doc α) (h : containsDoc s id = false) :
    getDoc (s ++ [(id, doc)]) id = some doc := by
  unfold getDoc
  rw [List.find?_append]
  unfold containsDoc at h
  cases hf : s.find? (fun p => p.1 == id) with
  | some p => rw [hf] at h; simp at h
  | none => simp

/-- C5: when the embedding provider fails on every call (whole-batch
failure) and the sampled Gaussian rows are non-zero (an event of
probability one), `create_embeddings` returns normally with exactly one
vector per chunk, each of dimension 768 and unit L2 norm; and an upload
whose text is non-empty still succeeds, storing a document with aligned
chunk/embedding lists of such fallback vectors. -/
theorem create_embeddings_fallback_spec (provider : Str → Option (List ℝ))
    (rand : Nat → Nat → ℝ) (hfail : ∀ t, provider t = none)
    (hrand : ∀ i, l2normSq (randRow rand i) ≠ 0) :
    (∀ texts : List Str,
      (create_embeddings provider rand texts).length = texts.length ∧
      ∀ v ∈ create_embeddings provider rand texts,
        v.length = EMBED_DIM ∧ l2normSq v = 1) ∧
    (∀ (s : Store ℝ) (text : Str) (id f sub d : String), text ≠ [] →
      containsDoc s id = false →
      ∃ doc, getDoc (upload_document s provider rand text id f sub d) id
          = some doc ∧
        doc.num_chunks = doc.chunks.length ∧
        doc.chunks.length = doc.embeddings.length ∧
        ∀ v ∈ doc.embeddings, v.length = EMBED_DIM ∧ l2normSq v = 1) := by
  have hmain : ∀ texts : List Str,
      (create_embeddings provider rand texts).length = texts.length ∧
      ∀ v ∈ create_embeddings provider rand texts,
        v.length = EMBED_DIM ∧ l2normSq v = 1 := by
    intro texts
    refine ⟨length_create_embeddings provider rand texts, ?_⟩
    intro v hv
    cases texts with
    | nil =>
      unfold create_embeddings tryEmbedAll at hv
      simp at hv
    | cons t ts =>
      have hfb := create_embeddings_fallback_of_fail provider rand (t :: ts)
        t (by simp) (hfail t)
      rw [hfb] at hv
      have hex := mem_fallbackEmbeddings rand ((t :: ts).length) v hv
      obtain ⟨i, hveq⟩ := hex
      rw [hveq]
      refine ⟨?_, l2normSq_normalizeRow _ (hrand i)⟩
      rw [length_normalizeRow]
      exact length_randRow rand i
  refine ⟨hmain, ?_⟩
  intro s text id f sub d htext hfresh
  have hne : text.isEmpty = false := by
    cases text with
    | nil => exact absurd rfl htext
    | cons c cs => rfl
  unfold upload_document
  rw [hne]
  simp only [Bool.false_eq_true, if_false]
  refine ⟨_, getDoc_append_fresh s id _ hfresh, rfl, ?_, ?_⟩
  · exact (length_create_embeddings provider rand (chunk_text text 200)).symm
  · exact (hmain (chunk_text text 200)).2

lemma randRow_rOne (i : Nat) : randRow rOne i = List.replicate EMBED_DIM 1 := by
  unfold randRow rOne
  apply List.eq_replicate_iff.mpr
  constructor
  · simp
  · intro b hb
    rw [List.mem_map] at hb
    obtain ⟨x, _, rfl⟩ := hb
    rfl

lemma l2normSq_replicate_one (n : Nat) :
    l2normSq (List.replicate n (1 : ℝ)) = n := by
  unfold l2normSq
  rw [List.map_replicate, List.sum_replicate]
  simp

lemma l2normSq_randRow_rOne (i : Nat) : l2normSq (randRow rOne i) ≠ 0 := by
  rw [randRow_rOne, l2normSq_replicate_one]
  norm_num [EMBED_DIM]

/-- C5 witness: the fallback specification applied to the always-failing
provider and constant-1 randomness on the one-chunk batch `["a"]`. -/
theorem create_embeddings_fallback_spec_witness :
    (create_embeddings pNone rOne [['a']]).length = 1 ∧
    ((create_embeddings pNone rOne [['a']]).getD 0 []).length = EMBED_DIM ∧
    l2normSq ((create_embeddings pNone rOne [['a']]).getD 0 []) = 1 := by
  have h := (create_embeddings_fallback_spec pNone rOne (fun _ => rfl)
    l2normSq_randRow_rOne).1 [['a']]
  obtain ⟨a, ha⟩ := List.length_eq_one.mp h.1
  have hmem : a ∈ create_embeddings pNone rOne [['a']] := by
    rw [ha]
    simp
  have h2 := h.2 a hmem
  refine ⟨h.1, ?_, ?_⟩
  · rw [ha]
    exact h2.1
  · rw [ha]
    exact h2.2

/-- C6 (amended): the document-path normalization of `create_embeddings`
never divides by a zero norm (the division is guarded by `norm > 0`),
leaves zero-norm vectors unscaled, and produces unit-norm output on
non-zero input; the query-path normalization of
`retrieve_relevant_chunks`, however, divides unconditionally, and its
denominator is zero exactly when the provider returns an all-zero query
embedding (see the counterexample). -/
theorem normalization_guard_spec (v : List ℝ) :
    (0 : ℝ) ∉ guardedNormDivisors v ∧
    (l2normSq v = 0 → normalizeGuarded v = v) ∧
    (l2normSq v ≠ 0 → l2normSq (normalizeGuarded v) = 1) ∧
    ((0 : ℝ) ∈ queryNormDivisors v ↔ l2normSq v = 0) := by
  refine ⟨?_, ?_, ?_, ?_⟩
  · unfold guardedNormDivisors
    split
    · rename_i hpos
      rw [List.mem_singleton]
      intro h0
      rw [← h0] at hpos
      exact lt_irrefl 0 hpos
    · exact List.not_mem_nil 0
  · intro h0
    unfold normalizeGuarded
    rw [if_neg]
    rw [l2norm_pos_iff]
    simp [h0]
  · intro hne
    unfold normalizeGuarded
    rw [if_pos ((l2norm_pos_iff v).mpr hne)]
    exact l2normSq_normalizeRow v hne
  · unfold queryNormDivisors
    rw [List.mem_singleton, eq_comm, l2norm_eq_zero_iff]

/-- C6 counterexample: for an all-zero provider-returned query embedding
the query-normalization step divides by the zero norm (its denominator is
0), refuting the claim that the normalization step never divides by a
zero norm. -/
theorem query_normalization_divides_by_zero_cex :
    (0 : ℝ) ∈ queryNormDivisors (List.replicate EMBED_DIM 0) ∧
    l2normSq (List.replicate EMBED_DIM 0) = 0 := by
  have h0 : l2normSq (List.replicate EMBED_DIM (0 : ℝ)) = 0 := by
    unfold l2normSq
    rw [List.map_replicate, List.sum_replicate]
    simp
  constructor
  · unfold queryNormDivisors
    rw [List.mem_singleton, eq_comm, l2norm_eq_zero_iff]
    exact h0
  · exact h0

/-- C6 witness: the guard specification applied to the vector `[3, 4]`
(norm 5): its guarded normalization has unit squared norm, and `0` is
not among the guarded divisors. -/
theorem normalization_guard_spec_witness :
    l2normSq [(3 : ℝ), 4] ≠ 0 ∧
    l2normSq (normalizeGuarded [(3 : ℝ), 4]) = 1 ∧
    (0 : ℝ) ∉ guardedNormDivisors [(3 : ℝ), 4] := by
  have hne : l2normSq [(3 : ℝ), 4] ≠ 0 := by
    norm_num [l2normSq]
  exact ⟨hne, (normalization_guard_spec [3, 4]).2.2.1 hne,
    (normalization_guard_spec [3, 4]).1⟩

/-- C7: every store state reachable by any sequence of uploads (with any
provider/randomness behavior, including failing embedding calls) and
deletions satisfies the alignment invariant: for every stored document,
`len(chunks) == len(embeddings)` and the stored `num_chunks` field equals
`len(chunks)`. -/
theorem store_invariant_reachable (s : Store ℝ) (h : Reachable s) :
    ∀ p ∈ s, p.2.chunks.length = p.2.embeddings.length ∧
      p.2.num_chunks = p.2.chunks.length := by
  induction h with
  | empty => intro p hp; cases hp
  | upload s provider rand text doc_id filename subject upload_date hs ih =>
    intro p hp
    unfold upload_document at hp
    by_cases hempty : text.isEmpty = true
    · rw [if_pos hempty] at hp
      exact ih p hp
    · rw [if_neg hempty] at hp
      rw [List.mem_append] at hp
      rcases hp with hp | hp
      · exact ih p hp
      · rw [List.mem_singleton] at hp
        subst hp
        exact ⟨(length_create_embeddings provider rand
          (chunk_text text 200)).symm, rfl⟩
  | delete s id hs ih =>
    intro p hp
    unfold delete_document at hp
    by_cases hc : containsDoc s id = true
    · rw [if_pos hc] at hp
      exact ih p (List.mem_of_mem_filter hp)
    · rw [if_neg hc] at hp
      exact ih p hp

/-- C7 witness: the invariant read off a concrete reachable store — one
upload (with an always-failing provider) onto the empty store. -/
theorem store_invariant_reachable_witness :
    (upload_document [] pNone rOne ['a'] "i" "f" "s" "d").Forall
      (fun p => p.2.chunks.length = p.2.embeddings.length ∧
        p.2.num_chunks = p.2.chunks.length) := by
  rw [List.forall_iff_forall_mem]
  exact store_invariant_reachable _
    (Reachable.upload [] pNone rOne ['a'] "i" "f" "s" "d" Reachable.empty)

/-! ## Chunker lemmas -/

lemma chunksOf_nil {α : Type} (n : Nat) : chunksOf n ([] : List α) = [] := by
  rw [chunksOf]
  rfl

lemma chunksOf_eq {α : Type} (n : Nat) (l : List α) (hl : l ≠ [])
    (hn : n ≠ 0) :
    chunksOf n l = l.take n :: chunksOf n (l.drop n) := by
  have hc : (l.isEmpty || n == 0) = false := by
    simp [List.isEmpty_iff, hl, hn]
  rw [chunksOf, hc]
  rfl

lemma chunksOf_flatten {α : Type} (n : Nat) (hn : n ≠ 0) (l : List α) :
    (chunksOf n l).flatten = l := by
  have key : ∀ (m : Nat) (l : List α), l.length ≤ m →
      (chunksOf n l).flatten = l := by
    intro m
    induction m with
    | zero =>
      intro l hl
      have : l = [] := by
        cases l with
        | nil => rfl
        | cons a t => simp at hl
      subst this
      rw [chunksOf_nil]
      rfl
    | succ m ih =>
      intro l hl
      by_cases hle : l = []
      · subst hle
        rw [chunksOf_nil]
        rfl
      · rw [chunksOf_eq n l hle hn, List.flatten_cons,
          ih (l.drop n) ?_, List.take_append_drop]
        have h1 : 0 < l.length := List.length_pos.mpr hle
        have h2 : 0 < n := Nat.pos_of_ne_zero hn
        rw [List.length_drop]
        omega
  exact key l.length l le_rfl

lemma chunksOf_parts {α : Type} (n : Nat) (hn : n ≠ 0) (l : List α)
    (c : List α) (hc : c ∈ chunksOf n l) : c ≠ [] ∧ c.length ≤ n := by
  have key : ∀ (m : Nat) (l : List α), l.length ≤ m →
      ∀ c ∈ chunksOf n l, c ≠ [] ∧ c.length ≤ n := by
    intro m
    induction m with
    | zero =>
      intro l hl c hc
      have : l = [] := by
        cases l with
        | nil => rfl
        | cons a t => simp at hl
      subst this
      rw [chunksOf_nil] at hc
      cases hc
    | succ m ih =>
      intro l hl c hc
      by_cases hle : l = []
      · subst hle
        rw [chunksOf_nil] at hc
        cases hc
      · rw [chunksOf_eq n l hle hn] at hc
        rcases List.mem_cons.mp hc with rfl | hmem
        · constructor
          · have h1 : 0 < l.length := List.length_pos.mpr hle
            have h2 : 0 < n := Nat.pos_of_ne_zero hn
            rw [ne_eq, ← List.length_eq_zero]
            rw [List.length_take]
            omega
          · rw [List.length_take]
            exact min_le_left n l.length
        · refine ih (l.drop n) ?_ c hmem
          have h1 : 0 < l.length := List.length_pos.mpr hle
          have h2 : 0 < n := Nat.pos_of_ne_zero hn
          rw [List.length_drop]
          omega
  exact key l.length l le_rfl c hc

lemma chunksOf_length {α : Type} (n : Nat) (hn : n ≠ 0) (l : List α) :
    (chunksOf n l).length = (l.length + n - 1) / n := by
  have key : ∀ (m : Nat) (l : List α), l.length ≤ m →
      (chunksOf n l).length = (l.length + n - 1) / n := by
    intro m
    induction m with
    | zero =>
      intro l hl
      have : l = [] := by
        cases l with
        | nil => rfl
        | cons a t => simp at hl
      subst this
      rw [chunksOf_nil]
      have h2 : 0 < n := Nat.pos_of_ne_zero hn
      simp only [List.length_nil, Nat.zero_add]
      rw [Nat.div_eq_of_lt (by omega)]
    | succ m ih =>
      intro l hl
      by_cases hle : l = []
      · subst hle
        rw [chunksOf_nil]
        have h2 : 0 < n := Nat.pos_of_ne_zero hn
        simp only [List.length_nil, Nat.zero_add]
        rw [Nat.div_eq_of_lt (by omega)]
      · have h1 : 0 < l.length := List.length_pos.mpr hle
        have h2 : 0 < n := Nat.pos_of_ne_zero hn
        rw [chunksOf_eq n l hle hn, List.length_cons,
          ih (l.drop n) (by rw [List.length_drop]; omega), List.length_drop]
        by_cases hcase : n ≤ l.length
        · have e1 : l.length - n + n - 1 = l.length - 1 := by omega
          have e2 : l.length + n - 1 = (l.length - 1) + n := by omega
          rw [e1, e2, Nat.add_div_right _ h2]
        · have e1 : l.length - n = 0 := by omega
          rw [e1]
          have e2 : (0 + n - 1) / n = 0 := Nat.div_eq_of_lt (by omega)
          rw [e2]
          have e3 : (l.length + n - 1) / n = 1 := by
            apply Nat.div_eq_of_lt_le
            · omega
            · omega
          rw [e3]
  exact key l.length l le_rfl

lemma pyJoin_cons_cons (w u : Str) (us : List Str) :
    pyJoin (w :: u :: us) = w ++ ' ' :: pyJoin (u :: us) := rfl

lemma pyJoin_append (ws1 ws2 : List Str) (h1 : ws1 ≠ []) (h2 : ws2 ≠ []) :
    pyJoin (ws1 ++ ws2) = pyJoin ws1 ++ ' ' :: pyJoin ws2 := by
  induction ws1 with
  | nil => exact absurd rfl h1
  | cons w ws' ih =>
    cases ws' with
    | nil =>
      cases ws2 with
      | nil => exact absurd rfl h2
      | cons u us => rfl
    | cons u us =>
      have hmid := ih (by simp)
      calc pyJoin ((w :: u :: us) ++ ws2)
          = w ++ ' ' :: pyJoin ((u :: us) ++ ws2) := rfl
        _ = w ++ ' ' :: (pyJoin (u :: us) ++ ' ' :: pyJoin ws2) := by
            rw [hmid]
        _ = (w ++ ' ' :: pyJoin (u :: us)) ++ ' ' :: pyJoin ws2 := by
            simp
        _ = pyJoin (w :: u :: us) ++ ' ' :: pyJoin ws2 := rfl

lemma pyJoin_map_flatten (P : List (List Str)) (hP : ∀ c ∈ P, c ≠ []) :
    pyJoin (P.map pyJoin) = pyJoin P.flatten := by
  induction P with
  | nil => rfl
  | cons c P' ih =>
    cases P' with
    | nil =>
      show pyJoin [pyJoin c] = pyJoin (c ++ [])
      rw [List.append_nil]
      rfl
    | cons c2 P'' =>
      have hc : c ≠ [] := hP c (by simp)
      have hflat : (c2 :: P'').flatten ≠ [] := by
        have hc2 : c2 ≠ [] := hP c2 (by simp)
        cases c2 with
        | nil => exact absurd rfl hc2
        | cons x xs => simp
      calc pyJoin ((c :: c2 :: P'').map pyJoin)
          = pyJoin c ++ ' ' :: pyJoin ((c2 :: P'').map pyJoin) := rfl
        _ = pyJoin c ++ ' ' :: pyJoin ((c2 :: P'').flatten) := by
            rw [ih (fun x hx => hP x (List.mem_cons_of_mem c hx))]
        _ = pyJoin (c ++ (c2 :: P'').flatten) :=
            (pyJoin_append c _ hc hflat).symm
        _ = pyJoin ((c :: c2 :: P'').flatten) := by
            simp [List.flatten_cons]

lemma pySplitWs_nil : pySplitWs [] = [] := by
  rw [pySplitWs]

lemma pySplitWs_cons_ws (c : Char) (cs : Str) (h : isWs c = true) :
    pySplitWs (c :: cs) = pySplitWs cs := by
  rw [pySplitWs, if_pos h]

lemma pySplitWs_cons_word (c : Char) (cs : Str) (h : isWs c = false) :
    pySplitWs (c :: cs) =
      (c :: cs.takeWhile (fun d => !isWs d)) ::
        pySplitWs (cs.dropWhile (fun d => !isWs d)) := by
  rw [pySplitWs, if_neg (by simp [h])]

lemma takeWhile_append_all {α : Type} (p : α → Bool) (w r : List α)
    (hw : ∀ x ∈ w, p x = true) :
    (w ++ r).takeWhile p = w ++ r.takeWhile p := by
  induction w with
  | nil => rfl
  | cons x w' ih =>
    rw [List.cons_append, List.takeWhile_cons, hw x (by simp)]
    simp only [if_true]
    rw [ih (fun y hy => hw y (List.mem_cons_of_mem x hy)), List.cons_append]

lemma dropWhile_append_all {α : Type} (p : α → Bool) (w r : List α)
    (hw : ∀ x ∈ w, p x = true) :
    (w ++ r).dropWhile p = r.dropWhile p := by
  induction w with
  | nil => rfl
  | cons x w' ih =>
    rw [List.cons_append, List.dropWhile_cons, hw x (by simp)]
    simp only [if_true]
    exact ih (fun y hy => hw y (List.mem_cons_of_mem x hy))

lemma takeWhile_all {α : Type} (p : α → Bool) (w : List α)
    (hw : ∀ x ∈ w, p x = true) : w.takeWhile p = w := by
  have := takeWhile_append_all p w [] hw
  simpa using this

lemma dropWhile_all {α : Type} (p : α → Bool) (w : List α)
    (hw : ∀ x ∈ w, p x = true) : w.dropWhile p = [] := by
  have := dropWhile_append_all p w [] hw
  simpa using this

/-- Every word produced by `pySplitWs` is non-empty and whitespace-free. -/
lemma pySplitWs_wf (s : Str) :
    ∀ w ∈ pySplitWs s, w ≠ [] ∧ ∀ c ∈ w, isWs c = false := by
  have key : ∀ (m : Nat) (s : Str), s.length ≤ m →
      ∀ w ∈ pySplitWs s, w ≠ [] ∧ ∀ c ∈ w, isWs c = false := by
    intro m
    induction m with
    | zero =>
      intro s hs w hw
      have : s = [] := by
        cases s with
        | nil => rfl
        | cons a t => simp at hs
      subst this
      rw [pySplitWs_nil] at hw
      cases hw
    | succ m ih =>
      intro s hs w hw
      cases s with
      | nil =>
        rw [pySplitWs_nil] at hw
        cases hw
      | cons c cs =>
        by_cases hc : isWs c = true
        · rw [pySplitWs_cons_ws c cs hc] at hw
          exact ih cs (by simp at hs; omega) w hw
        · have hc' : isWs c = false := by
            rwa [Bool.not_eq_true] at hc
          rw [pySplitWs_cons_word c cs hc'] at hw
          rcases List.mem_cons.mp hw with rfl | hmem
          · refine ⟨by simp, ?_⟩
            intro x hx
            rcases List.mem_cons.mp hx with rfl | hx'
            · exact hc'
            · have := List.mem_takeWhile_imp hx'
              rwa [Bool.not_eq_true'] at this
          · refine ih (cs.dropWhile (fun d => !isWs d)) ?_ w hmem
            have hle := (List.IsSuffix.sublist (List.dropWhile_suffix
              (l := cs) (fun d => !isWs d))).length_le
            simp at hs
            omega
  exact key s.length s le_rfl

/-- Splitting the space-join of non-empty whitespace-free words gives
back exactly the words. -/
lemma pySplitWs_pyJoin (ws : List Str)
    (hws : ∀ w ∈ ws, w ≠ [] ∧ ∀ c ∈ w, isWs c = false) :
    pySplitWs (pyJoin ws) = ws := by
  induction ws with
  | nil => exact pySplitWs_nil
  | cons w ws' ih =>
    obtain ⟨hwne, hwc⟩ := hws w (by simp)
    obtain ⟨c, w', rfl⟩ : ∃ c w', w = c :: w' := by
      cases w with
      | nil => exact absurd rfl hwne
      | cons c w' => exact ⟨c, w', rfl⟩
    have hc : isWs c = false := hwc c (by simp)
    have hwall : ∀ x ∈ w', (fun d => !isWs d) x = true := by
      intro x hx
      simp [hwc x (List.mem_cons_of_mem c hx)]
    have hsp : isWs ' ' = true := by decide
    cases ws' with
    | nil =>
      show pySplitWs (c :: w') = [c :: w']
      rw [pySplitWs_cons_word c w' hc, takeWhile_all _ w' hwall,
        dropWhile_all _ w' hwall, pySplitWs_nil]
    | cons w2 ws'' =>
      rw [pyJoin_cons_cons]
      show pySplitWs (c :: (w' ++ ' ' :: pyJoin (w2 :: ws''))) =
        (c :: w') :: w2 :: ws''
      rw [pySplitWs_cons_word c _ hc,
        takeWhile_append_all _ w' _ hwall,
        dropWhile_append_all _ w' _ hwall]
      have ht : (' ' :: pyJoin (w2 :: ws'')).takeWhile (fun d => !isWs d)
          = [] := by
        rw [List.takeWhile_cons]
        simp [hsp]
      have hd : (' ' :: pyJoin (w2 :: ws'')).dropWhile (fun d => !isWs d)
          = ' ' :: pyJoin (w2 :: ws'') := by
        rw [List.dropWhile_cons]
        simp [hsp]
      rw [ht, hd, List.append_nil, pySplitWs_cons_ws _ _ hsp,
        ih (fun x hx => hws x (List.mem_cons_of_mem _ hx))]

/-- C8 (amended): for every chunk size `n > 0`: if the text contains at
least one word, every produced segment has at most `n` words, joining
all segments in order with single spaces reconstructs the
whitespace-normalized text (the space-join of its words), and the
segment count is `⌈word_count / n⌉` (= `(word_count + n - 1) / n`); a
text with *no* words — empty, or non-empty but all whitespace — yields
exactly one segment, the empty string.  The frozen claim said the count
formula holds for every non-empty text; a whitespace-only text is
non-empty with zero words yet yields one segment (counterexample
below). -/
theorem chunk_text_spec (text : Str) (n : Nat) (hn : 0 < n) :
    (pySplitWs text = [] → chunk_text text n = [[]]) ∧
    (pySplitWs text ≠ [] →
      (∀ seg ∈ chunk_text text n, (pySplitWs seg).length ≤ n) ∧
      pyJoin (chunk_text text n) = pyJoin (pySplitWs text) ∧
      (chunk_text text n).length = ((pySplitWs text).length + n - 1) / n) := by
  have hn' : n ≠ 0 := Nat.pos_iff_ne_zero.mp hn
  constructor
  · intro h0
    unfold chunk_text
    rw [if_pos (by simp [List.isEmpty_iff, h0])]
  · intro hne
    have hemp : (pySplitWs text).isEmpty = false := by
      simp [List.isEmpty_iff, hne]
    unfold chunk_text
    rw [hemp]
    simp only [Bool.false_eq_true, if_false]
    have hwf := pySplitWs_wf text
    have hparts : ∀ c ∈ chunksOf n (pySplitWs text), c ≠ [] :=
      fun c hc => (chunksOf_parts n hn' (pySplitWs text) c hc).1
    refine ⟨?_, ?_, ?_⟩
    · intro seg hseg
      rw [List.mem_map] at hseg
      obtain ⟨c, hcmem, rfl⟩ := hseg
      have hcwf : ∀ w ∈ c, w ≠ [] ∧ ∀ ch ∈ w, isWs ch = false := by
        intro w hw
        apply hwf
        have hmem : w ∈ (chunksOf n (pySplitWs text)).flatten :=
          List.mem_flatten.mpr ⟨c, hcmem, hw⟩
        rwa [chunksOf_flatten n hn' (pySplitWs text)] at hmem
      rw [pySplitWs_pyJoin c hcwf]
      exact (chunksOf_parts n hn' (pySplitWs text) c hcmem).2
    · rw [pyJoin_map_flatten _ hparts,
        chunksOf_flatten n hn' (pySplitWs text)]
    · rw [List.length_map, chunksOf_length n hn' (pySplitWs text)]

/-- C8 counterexample: the text `" "` is non-empty but has zero words;
chunking it (at size 1) yields one empty segment where the frozen claim
requires `ceil(0 / 1) = 0` segments. -/
theorem chunk_text_whitespace_cex :
    chunk_text [' '] 1 = [[]] ∧
    (chunk_text [' '] 1).length = 1 ∧
    ((pySplitWs [' ']).length + 1 - 1) / 1 = 0 := by
  have hs : pySplitWs [' '] = [] := by
    rw [pySplitWs_cons_ws ' ' [] (by decide), pySplitWs_nil]
  have h1 : chunk_text [' '] 1 = [[]] := by
    unfold chunk_text
    rw [hs]
    rfl
  exact ⟨h1, by rw [h1]; rfl, by rw [hs]; rfl⟩

/-- C8 witness: the amended specification evaluated on the text
`"a b c"` (three words) with chunk size 2: reconstruction holds and the
segment count is `ceil(3 / 2) = 2`. -/
theorem chunk_text_spec_witness :
    pyJoin (chunk_text ['a', ' ', 'b', ' ', 'c'] 2) =
      pyJoin (pySplitWs ['a', ' ', 'b', ' ', 'c']) ∧
    (chunk_text ['a', ' ', 'b', ' ', 'c'] 2).length = 2 := by
  have hsplit : pySplitWs ['a', ' ', 'b', ' ', 'c'] = [['a'], ['b'], ['c']] := by
    simp [pySplitWs, isWs, List.takeWhile, List.dropWhile]
  have h := (chunk_text_spec ['a', ' ', 'b', ' ', 'c'] 2 (by norm_num)).2
    (by rw [hsplit]; simp)
  refine ⟨h.2.1, ?_⟩
  rw [h.2.2, hsplit]
  rfl
